import Mathlib

/-!
Verification of the connect-four Q-learning engine (`game_tree.py`,
`players.py`, `connect_four.py`) against its natural-language specification.

Python dictionaries are embedded as association lists that preserve
insertion order (Python 3.7+ dict semantics): assignment to an existing key
replaces its value in place, assignment to a fresh key appends it at the
end.  Python floats are embedded as rationals.  Operations that can raise
(`KeyError`, `IndexError`, `ValueError`, a failing `assert`) return
`Option`/`Except` with `none`/`error` marking the raise.
-/

/-- A move coordinate `(y, x)`, as in the source. -/
abbrev Move : Type := Nat × Nat

/-- Dictionary lookup `d[k]`: first binding of the key, `none` = `KeyError`. -/
def alookup {β : Type} : List (Move × β) → Move → Option β
  | [], _ => none
  | (k, v) :: rest, key => if k = key then some v else alookup rest key

/-- Dictionary assignment `d[k] = v`: replace the first binding of `k`
in place, or append the fresh binding at the end. -/
def aset {β : Type} : List (Move × β) → Move → β → List (Move × β)
  | [], key, val => [(key, val)]
  | (k, v) :: rest, key, val =>
      if k = key then (k, val) :: rest else (k, v) :: aset rest key val

/-- Iteration order of a dictionary's keys. -/
def akeys {β : Type} (l : List (Move × β)) : List Move := l.map Prod.fst

/-- Python `max(d[action] for action in d)`: maximum of the stored values,
`none` = `ValueError` on an empty dictionary. -/
def maxQ : List (Move × ℚ) → Option ℚ
  | [] => none
  | (_, v) :: rest =>
      match maxQ rest with
      | none => some v
      | some m => some (max v m)

/-- The board state consumed by the tree (`connect_four.ConnectFour`):
board as rows of cell values (0 empty, 1, 2), the recorded move sequence,
and the currently available moves. -/
structure ConnectFour : Type where
  board_size : Nat × Nat
  board : List (List Nat)
  move_sequence : List Move
  possible_moves : List Move

/-- ConnectFour.__init__: an empty `y` by `x` board whose available moves
are the bottom cell of every column. -/
def ConnectFour.init (y x : Nat) : ConnectFour :=
  { board_size := (y, x)
    board := List.replicate y (List.replicate x 0)
    move_sequence := []
    possible_moves := (List.range x).map (fun ex => (0, ex)) }

/-- ConnectFour.is_player_1_turn. -/
def ConnectFour.is_player_1_turn (g : ConnectFour) : Bool :=
  g.move_sequence.length % 2 = 0

/-- GameTree (`game_tree.py`): per-node board size, the q-value table,
the constants `initial_q_val` and `reward`, and the subtree dictionary. -/
inductive GameTree : Type where
  | mk : (Nat × Nat) → List (Move × ℚ) → ℚ → ℚ → List (Move × GameTree) → GameTree

/-- Field `board_size` of a GameTree node. -/
def GameTree.board_size : GameTree → Nat × Nat
  | .mk b _ _ _ _ => b

/-- Field `q_values` of a GameTree node. -/
def GameTree.q_values : GameTree → List (Move × ℚ)
  | .mk _ q _ _ _ => q

/-- Field `initial_q_val` of a GameTree node. -/
def GameTree.initial_q_val : GameTree → ℚ
  | .mk _ _ i _ _ => i

/-- Field `reward` of a GameTree node. -/
def GameTree.reward : GameTree → ℚ
  | .mk _ _ _ r _ => r

/-- Field `_subtrees` of a GameTree node. -/
def GameTree.subtrees : GameTree → List (Move × GameTree)
  | .mk _ _ _ _ s => s

/-- Assignment `self.q_values[m] = v`. -/
def GameTree.setQ (t : GameTree) (m : Move) (v : ℚ) : GameTree :=
  .mk t.board_size (aset t.q_values m v) t.initial_q_val t.reward t.subtrees

/-- Assignment `self._subtrees[m] = c`. -/
def GameTree.setSub (t : GameTree) (m : Move) (c : GameTree) : GameTree :=
  .mk t.board_size t.q_values t.initial_q_val t.reward (aset t.subtrees m c)

/-- GameTree.__init__: q_values maps every currently possible move of the
game instance to `initial_q`, subtrees start empty. -/
def GameTree.init (game : ConnectFour) (initial_q reward : ℚ) : GameTree :=
  .mk game.board_size (game.possible_moves.map (fun c => (c, initial_q)))
    initial_q reward []

/-- GameTree.add_subtree: insert `GameTree(game_instance, self.initial_q_val,
self.reward)` under the key `move`. -/
def GameTree.add_subtree (t : GameTree) (game : ConnectFour) (move : Move) : GameTree :=
  t.setSub move (GameTree.init game t.initial_q_val t.reward)

/-- GameTree.find_subtree_by_move. -/
def GameTree.find_subtree_by_move (t : GameTree) (move : Move) : Option GameTree :=
  alookup t.subtrees move

/-- GameTree.update_q_tables, written over the remaining move suffix
`move_sequence.drop curr_move_index` (the source only reads
`move_sequence[curr_move_index]`, `move_sequence[curr_move_index + 1]`,
compares `curr_move_index + 2 < len(move_sequence)` — here: the suffix has
at least three elements — and recurses at `curr_move_index + 2` — here: the
suffix with its first two elements dropped).  `none` marks a raised
`KeyError`/`IndexError`/`ValueError`. -/
def updateQTables (t : GameTree) (ms : List Move) (player winner : Nat)
    (learning_rate discount : ℚ) : Option GameTree :=
  match ms with
  | [] => none
  | m :: rest =>
    match alookup t.q_values m with
    | none => none
    | some original_q_value =>
      match rest with
      | m1 :: m2 :: rest2 =>
        match alookup t.subtrees m with
        | none => none
        | some child =>
          match alookup child.subtrees m1 with
          | none => none
          | some next_state_tree =>
            match updateQTables next_state_tree (m2 :: rest2) player winner
                learning_rate discount with
            | none => none
            | some updated_next =>
              match maxQ updated_next.q_values with
              | none => none
              | some mx =>
                some (((t.setQ m ((1 - learning_rate) * original_q_value +
                    learning_rate * (discount * mx)))).setSub m
                    (child.setSub m1 updated_next))
      | _ =>
        if winner = player then
          some (t.setQ m ((1 - learning_rate) * original_q_value +
            learning_rate * t.reward))
        else if winner + player = 3 then
          some (t.setQ m ((1 - learning_rate) * original_q_value +
            learning_rate * (-t.reward)))
        else
          some (t.setQ m ((1 - learning_rate) * original_q_value))

/-- GameTree.update_q_tables with the source's `curr_move_index` argument:
the call only depends on the move suffix from that index on. -/
def updateQTablesFrom (t : GameTree) (ms : List Move) (player winner : Nat)
    (learning_rate discount : ℚ) (curr_move_index : Nat) : Option GameTree :=
  updateQTables t (ms.drop curr_move_index) player winner learning_rate discount

/-- A complete 5 by 5 game won by player 1: four in column 0 (player 1's
moves sit at indices 0, 2, 4, 6), player 2 stacking column 1. -/
def sevenGame : List Move :=
  [(0,0), (0,1), (1,0), (1,1), (2,0), (2,1), (3,0)]

/-- A complete 5 by 5 drawn game: the board fills row by row with the
pattern 1 1 2 2 1 / 2 2 1 1 2, which contains no four in a row; within
each row the cells are played in column order 0, 2, 1, 3, 4 so that the
turn parity matches the cell's owner. -/
def drawGame : List Move :=
  [(0,0), (0,2), (0,1), (0,3), (0,4),
   (1,0), (1,2), (1,1), (1,3), (1,4),
   (2,0), (2,2), (2,1), (2,3), (2,4),
   (3,0), (3,2), (3,1), (3,3), (3,4),
   (4,0), (4,2), (4,1), (4,3), (4,4)]

/-- Node standing at the path `drawGame.take 23`, holding player 2's final
move `(4,3)` with current q-value 1 (and the required child for it). -/
def c1Tree : GameTree :=
  .mk (5,5) [((4,3), 1)] 0 10 [((4,3), .mk (5,5) [((4,4), 0)] 0 10 [])]

/-- Node at the path of player 1's first move whose child has no subtree
for player 2's reply `(0,1)`. -/
def c2Child : GameTree := .mk (5,5) [((0,1), 0)] 0 10 []

/-- Root node for the C2 counterexample: the child for `(0,0)` exists, but
no grandchild for `(0,1)` does, while `0 + 2 < 7`. -/
def c2Tree : GameTree := .mk (5,5) [((0,0), 2)] 0 10 [((0,0), c2Child)]

/-- Grandchild node for the C2 witness: holds player 1's final move. -/
def w2Grand : GameTree := .mk (5,5) [((3,0), 2)] 0 10 []

/-- Intermediate (opponent-move) node for the C2 witness. -/
def w2Child : GameTree := .mk (5,5) [((2,1), 0)] 0 10 [((2,1), w2Grand)]

/-- Root node for the C2 witness, standing at the path of the first four
moves of `sevenGame`. -/
def w2Tree : GameTree := .mk (5,5) [((2,0), 1)] 0 10 [((2,0), w2Child)]

/-- Node for the C3 witness: holds player 1's winning move `(3,0)` with old
value 4 and a child for it. -/
def c3Tree : GameTree :=
  .mk (5,5) [((3,0), 4)] 0 10 [((3,0), .mk (5,5) [((4,0), 0)] 0 10 [])]

/-- Convex blend used by every assignment of `update_q_tables`:
`(1 - learning_rate) * old + learning_rate * target`. -/
def qBlend (learning_rate old target : ℚ) : ℚ :=
  (1 - learning_rate) * old + learning_rate * target

/-- Repeating the identical blend n times toward a fixed target. -/
def qIter (learning_rate target : ℚ) : Nat → ℚ → ℚ
  | 0, v => v
  | n+1, v => qIter learning_rate target n (qBlend learning_rate v target)

/-- Node for the C5 witness. -/
def w5Tree : GameTree :=
  .mk (5,5) [((2,1), 4)] 0 10 [((2,1), .mk (5,5) [((3,1), 0)] 0 10 [])]

/-- ConnectFour.record_move: places the value for the acting (or forced)
player, appends to `move_sequence`, removes the move from
`possible_moves` and opens the cell above (unless on the top row).
`none` marks a raised `IndexError`/`ValueError`. -/
def ConnectFour.record_move (g : ConnectFour) (y x : Nat)
    (forced_move_player : Option Nat) : Option ConnectFour :=
  if y < g.board_size.1 ∧ x < g.board_size.2 then
    if (y, x) ∈ g.possible_moves then
      let val := match forced_move_player with
        | some p => p
        | none => if g.is_player_1_turn then 1 else 2
      some { g with
        board := g.board.set y ((g.board.getD y []).set x val)
        move_sequence := g.move_sequence ++ [(y, x)]
        possible_moves := (g.possible_moves.erase (y, x)) ++
          (if y ≠ g.board_size.1 - 1 then [(y + 1, x)] else []) }
    else none
  else none

/-- Run-length encoding of a list, as `itertools.groupby` produces it:
`(value, length)` per maximal run. -/
def rle : List Nat → List (Nat × Nat)
  | [] => []
  | x :: rest =>
    match rle rest with
    | [] => [(x, 1)]
    | (k, n) :: gs => if k = x then (x, n + 1) :: gs else (x, 1) :: (k, n) :: gs

/-- consecutive_in_list (`connect_four.py`): run-length encode, optionally
merge the last run with the first when they hold the same value (`wrap`),
then report 1 or 2 if that value has a run of length at least 4.  (With
`wrap` and an empty list the source would raise; `get_winner` never scans
an empty line on a board of the documented minimum size.) -/
def consecutive_in_list (lst : List Nat) (wrap : Bool) : Option Nat :=
  let grouped := rle lst
  let grouped2 :=
    match grouped.getLast?, grouped.head? with
    | some (lk, ln), some (hk, hn) =>
      if wrap = true ∧ lk = hk then grouped.dropLast ++ [(lk, ln + hn)]
      else grouped
    | _, _ => grouped
  if grouped2.any (fun p => decide (p.1 = 1 ∧ 4 ≤ p.2)) then some 1
  else if grouped2.any (fun p => decide (p.1 = 2 ∧ 4 ≤ p.2)) then some 2
  else none

/-- Cell read `board[y][x]` (all uses are in bounds). -/
def cellAt (b : List (List Nat)) (y x : Nat) : Nat := (b.getD y []).getD x 0

/-- numpy `board.diagonal(i)` for a `rows` by `cols` matrix. -/
def npDiagonal (b : List (List Nat)) (rows cols : Nat) (i : Int) : List Nat :=
  if 0 ≤ i then
    let o := i.toNat
    (List.range (min rows (cols - o))).map (fun j => cellAt b j (j + o))
  else
    let o := (-i).toNat
    (List.range (min (rows - o) cols)).map (fun j => cellAt b (j + o) j)

/-- Scan a list of lines in order, returning the first non-falsy
`consecutive_in_list` result (the walrus test in `get_winner`). -/
def scanLines : List (List Nat) → Bool → Option Nat
  | [], _ => none
  | l :: rest, wrap =>
    match consecutive_in_list l wrap with
    | some w => some w
    | none => scanLines rest wrap

/-- ConnectFour.get_winner: checks the diagonals of the column-flipped
board, then of the original board (offsets `4 - rows` up to `cols - 4`),
then every row with `wrap = True`, then every column; finally reports a
draw when no move is available, and `none` (game unfinished) otherwise. -/
def ConnectFour.get_winner (g : ConnectFour) : Option Nat :=
  let rows := g.board_size.1
  let cols := g.board_size.2
  let offsets : List Int :=
    (List.range (rows + cols - 7)).map (fun k => (k : Int) + (4 - (rows : Int)))
  let flipped := g.board.map List.reverse
  match scanLines (offsets.map (npDiagonal flipped rows cols)) false with
  | some w => some w
  | none =>
  match scanLines (offsets.map (npDiagonal g.board rows cols)) false with
  | some w => some w
  | none =>
  match scanLines ((List.range rows).map (fun r => g.board.getD r [])) true with
  | some w => some w
  | none =>
  match scanLines ((List.range cols).map
      (fun c => g.board.map (fun row => row.getD c 0))) false with
  | some w => some w
  | none => if g.possible_moves = [] then some 0 else none

/-- Modelled from the claim's reading of the intended rules: whether the
board truly holds four contiguous cells of player `p` in a straight line
(horizontal, vertical, or either diagonal) — the honest win condition,
with no wrap-around. -/
def hasFourInARow (b : List (List Nat)) (p : Nat) : Bool :=
  let rows := b.length
  let cols := (b.getD 0 []).length
  (List.range rows).any fun y =>
    (List.range cols).any fun x =>
      [((0 : Int), (1 : Int)), (1, 0), (1, 1), (1, -1)].any fun d =>
        (List.range 4).all fun k =>
          let yy := (y : Int) + k * d.1
          let xx := (x : Int) + k * d.2
          decide (0 ≤ yy ∧ yy < (rows : Int) ∧ 0 ≤ xx ∧ xx < (cols : Int)) &&
            (cellAt b yy.toNat xx.toNat == p)

/-- Board for C9: player 1 holds the first two and last two cells of the
bottom row, player 2 has a stack of three in the middle column; no player
has four contiguous cells anywhere. -/
def c9Board : List (List Nat) :=
  [[1,1,2,1,1], [0,0,2,0,0], [0,0,2,0,0], [0,0,0,0,0], [0,0,0,0,0]]

/-- Game state carrying `c9Board`, reachable by the alternating sequence
recorded in `move_sequence`. -/
def c9Game : ConnectFour :=
  { board_size := (5,5)
    board := c9Board
    move_sequence := [(0,0),(0,2),(0,1),(1,2),(0,3),(2,2),(0,4)]
    possible_moves := [(1,0),(1,1),(3,2),(1,3),(1,4)] }

/-- Play a list of moves from a starting state through
`ConnectFour.record_move` (no forced player). -/
def playMoves (g : ConnectFour) : List Move → Option ConnectFour
  | [] => some g
  | (y, x) :: rest =>
    match g.record_move y x none with
    | none => none
    | some g2 => playMoves g2 rest

/-- Modelled from the spec (§3 data model): the spec stores
`learning_rate` and `discount` as node attributes copied into every child
at creation; the source `GameTree` has no such attributes (they are
per-call parameters of `update_q_tables`).  Fields, in order: board_size,
action_values, initial_value, reward, learning_rate, discount, children. -/
inductive SpecGameTree : Type where
  | mk : (Nat × Nat) → List (Move × ℚ) → ℚ → ℚ → ℚ → ℚ →
      List (Move × SpecGameTree) → SpecGameTree

/-- Field `board_size` of a spec-model node. -/
def SpecGameTree.board_size : SpecGameTree → Nat × Nat
  | .mk b _ _ _ _ _ _ => b

/-- Field `action_values` of a spec-model node. -/
def SpecGameTree.action_values : SpecGameTree → List (Move × ℚ)
  | .mk _ av _ _ _ _ _ => av

/-- Field `initial_value` of a spec-model node. -/
def SpecGameTree.initial_value : SpecGameTree → ℚ
  | .mk _ _ iv _ _ _ _ => iv

/-- Field `reward` of a spec-model node. -/
def SpecGameTree.reward : SpecGameTree → ℚ
  | .mk _ _ _ r _ _ _ => r

/-- Field `learning_rate` of a spec-model node. -/
def SpecGameTree.learning_rate : SpecGameTree → ℚ
  | .mk _ _ _ _ lr _ _ => lr

/-- Field `discount` of a spec-model node. -/
def SpecGameTree.discount : SpecGameTree → ℚ
  | .mk _ _ _ _ _ d _ => d

/-- Field `children` of a spec-model node. -/
def SpecGameTree.children : SpecGameTree → List (Move × SpecGameTree)
  | .mk _ _ _ _ _ _ ch => ch

/-- Modelled from the spec (§4.1): `new(board_size, initial_value, reward,
learning_rate, discount, legal_moves)` pre-populates `action_values` over
`legal_moves` at `initial_value`, with empty `children`. -/
def SpecGameTree.new (bs : Nat × Nat) (iv r lr d : ℚ) (legal : List Move) :
    SpecGameTree :=
  .mk bs (legal.map (fun c => (c, iv))) iv r lr d []

/-- Modelled from the spec (§4.1): `add_child(move, legal_moves_after_move)`
inserts a child inheriting `initial_value`, `reward`, `learning_rate`,
`discount`, seeded over the post-move legal moves. -/
def SpecGameTree.add_child (n : SpecGameTree) (move : Move)
    (legal : List Move) : SpecGameTree :=
  .mk n.board_size n.action_values n.initial_value n.reward n.learning_rate
    n.discount (aset n.children move
      (SpecGameTree.new n.board_size n.initial_value n.reward n.learning_rate
        n.discount legal))

mutual

/-- Erasure of the spec model onto the source tree: drop the two fields
the source does not store. -/
def SpecGameTree.erase : SpecGameTree → GameTree
  | .mk bs av iv r _ _ ch => .mk bs av iv r (eraseChildren ch)

/-- Erasure of a spec-model child dictionary. -/
def eraseChildren : List (Move × SpecGameTree) → List (Move × GameTree)
  | [] => []
  | (m, c) :: rest => (m, SpecGameTree.erase c) :: eraseChildren rest

end

/-- Post-move game state for the C4 and C6 witnesses: the empty 5 by 5
board after the single move `(0,3)`. -/
def w6Game : ConnectFour :=
  ((ConnectFour.init 5 5).record_move 0 3 none).getD (ConnectFour.init 5 5)

/-- Spec-model node for the C4 witness. -/
def w4Spec : SpecGameTree :=
  .mk (5,5) [((0,3), 0)] 0 10 (1/5) (9/10) []

/-- Evolution of a single node by `add_subtree` calls that respect the
documented preconditions (`move` a key of `q_values`, not yet a key of
`_subtrees`). -/
inductive ReachableAdds (root : GameTree) : GameTree → Prop where
  | refl : ReachableAdds root root
  | step (t : GameTree) (game : ConnectFour) (move : Move) :
      ReachableAdds root t → move ∈ akeys t.q_values →
      move ∉ akeys t.subtrees → ReachableAdds root (t.add_subtree game move)

/-- Tree for the C6 witness: the initial root after one legal
`add_subtree`. -/
def w6Tree : GameTree :=
  (GameTree.init (ConnectFour.init 5 5) 0 10).add_subtree w6Game (0,3)

-- ===== THEOREMS =====

/-- Exploration-rate sequence of `AIPlayer.play_against` (players.py lines
169-170 and 195): start at `max_explore_rate`, subtract
`(max_explore_rate - min_explore_rate) / num_games` after each episode. -/
def exploreRateSeq (max_explore_rate min_explore_rate : ℚ) (num_games : Nat) :
    Nat → ℚ
  | 0 => max_explore_rate
  | k + 1 => exploreRateSeq max_explore_rate min_explore_rate num_games k -
      (max_explore_rate - min_explore_rate) / (num_games : ℚ)

-- ===== THEOREMS =====

/-- Python exception kinds raised by the player code paths. -/
inductive PyErr : Type where
  | keyError : PyErr
  | indexError : PyErr
  | valueError : PyErr
  | assertionError : PyErr
deriving DecidableEq

/-- State of an `AIPlayer` (players.py): the player number, the owned tree,
the cursor (`curr_tree`) and the shared game.  The cursor aliases a node
inside `complete_tree` in the source; here it is represented by the move
path from the root (`some []` = the root itself, `none` = detached), which
is the representation invariant the reference maintains. -/
structure AIState : Type where
  player_number : Nat
  complete_tree : GameTree
  curr_path : Option (List Move)
  game : ConnectFour

/-- Resolve a cursor path to the tree node it denotes. -/
def nodeAt : GameTree → List Move → Option GameTree
  | t, [] => some t
  | t, m :: p =>
    match alookup t.subtrees m with
    | none => none
    | some c => nodeAt c p

/-- Apply `add_subtree game mv` to the node at `path` inside `t`,
rebuilding the spine (the in-place mutation through the aliased cursor in
the source). -/
def addSubtreeAt : GameTree → List Move → ConnectFour → Move → Option GameTree
  | t, [], game, mv => some (t.add_subtree game mv)
  | t, m :: p, game, mv =>
    match alookup t.subtrees m with
    | none => none
    | some c =>
      match addSubtreeAt c p game mv with
      | none => none
      | some c2 => some (t.setSub m c2)

/-- `random.choice(l)` with the drawn index supplied as an oracle;
raises `IndexError` on an empty sequence. -/
def choice {α : Type} (l : List α) (ix : Nat) : Except PyErr α :=
  match l.get? (ix % l.length) with
  | some a => .ok a
  | none => .error .indexError

/-- The exploit accumulation loop of `AIPlayer.make_move` (players.py
lines 146-151): collect the moves tying the running best q-value, reset on
a strictly better one.  The first key is appended without any lookup
(short-circuit of `optimal_actions == [] or ...`); later iterations read
`q_values[recorded_move]` and `q_values[optimal_actions[0]]` (`none` =
`KeyError`). -/
def optLoop (qs : List (Move × ℚ)) : List Move → List Move → Option (List Move)
  | acc, [] => some acc
  | acc, m :: rest =>
    match acc with
    | [] => optLoop qs [m] rest
    | a0 :: _ =>
      match alookup qs m, alookup qs a0 with
      | some qm, some qa =>
        if qm = qa then optLoop qs (acc ++ [m]) rest
        else if qa < qm then optLoop qs [m] rest
        else optLoop qs acc rest
      | _, _ => none

/-- The `optimal_actions` list built by the exploit branch: fold over the
subtree keys in iteration order. -/
def optimalActions (qs : List (Move × ℚ)) (subs : List (Move × GameTree)) :
    Option (List Move) :=
  optLoop qs [] (akeys subs)

/-- Step 1 of `AIPlayer.make_move` (players.py lines 118-128): advance the
cursor along the opponent's latest move — descend if the child exists,
detach if unknown outside training, create the child and descend when
training. -/
def mmAdvance (s : AIState) (training : Bool) : Except PyErr AIState :=
  match s.curr_path with
  | none => .ok s
  | some p =>
    if s.player_number ≠ 1 ∨ p ≠ [] then
      match s.game.move_sequence.getLast? with
      | none => .error .indexError
      | some latest =>
        match nodeAt s.complete_tree p with
        | none => .error .keyError
        | some node =>
          if latest ∈ akeys node.subtrees then
            .ok { s with curr_path := some (p ++ [latest]) }
          else if training = false then
            .ok { s with curr_path := none }
          else
            match addSubtreeAt s.complete_tree p s.game latest with
            | none => .error .keyError
            | some tree2 =>
              .ok { s with complete_tree := tree2,
                           curr_path := some (p ++ [latest]) }
    else .ok s

/-- Explore branch of `AIPlayer.make_move` (players.py lines 133-141):
play a uniformly random possible move; when training, assert the cursor is
attached, create the child if missing (from the post-move game state) and
descend; otherwise detach. -/
def mmExplore (s : AIState) (training : Bool) (ix : Nat) : Except PyErr AIState :=
  match choice s.game.possible_moves ix with
  | .error e => .error e
  | .ok chosen =>
    match s.game.record_move chosen.1 chosen.2 none with
    | none => .error .valueError
    | some game2 =>
      if training = true then
        match s.curr_path with
        | none => .error .assertionError
        | some p =>
          match nodeAt s.complete_tree p with
          | none => .error .keyError
          | some node =>
            if chosen ∈ akeys node.subtrees then
              .ok { s with game := game2, curr_path := some (p ++ [chosen]) }
            else
              match addSubtreeAt s.complete_tree p game2 chosen with
              | none => .error .keyError
              | some tree2 =>
                .ok { s with game := game2, complete_tree := tree2,
                             curr_path := some (p ++ [chosen]) }
      else .ok { s with game := game2, curr_path := none }

/-- Exploit branch of `AIPlayer.make_move` (players.py lines 145-154):
choose uniformly among the subtree moves with maximal q-value, play it and
descend the cursor into the chosen child. -/
def mmExploit (s : AIState) (p : List Move) (node : GameTree) (ix : Nat) :
    Except PyErr AIState :=
  match optimalActions node.q_values node.subtrees with
  | none => .error .keyError
  | some acts =>
    match choice acts ix with
    | .error e => .error e
    | .ok chosen =>
      match s.game.record_move chosen.1 chosen.2 none with
      | none => .error .valueError
      | some game2 =>
        .ok { s with game := game2, curr_path := some (p ++ [chosen]) }

/-- Step 2 of `AIPlayer.make_move` (players.py lines 131-154): explore when
the cursor is detached, the cursor node has no subtrees yet, or a training
exploration draw fires; exploit otherwise. -/
def mmChoose (s : AIState) (training : Bool) (explore_rate explore_num : ℚ)
    (ix : Nat) : Except PyErr AIState :=
  match s.curr_path with
  | none => mmExplore s training ix
  | some p =>
    match nodeAt s.complete_tree p with
    | none => .error .keyError
    | some node =>
      if node.subtrees.isEmpty = true ∨
          (training = true ∧ explore_num < explore_rate) then
        mmExplore s training ix
      else
        mmExploit s p node ix

/-- AIPlayer.make_move: advance the cursor for the opponent's move, then
choose and play this agent's action.  `explore_num` is the
`random.uniform(0.0, 1.0)` draw and `ix` the `random.choice` draw. -/
def makeMove (s : AIState) (training : Bool) (explore_rate explore_num : ℚ)
    (ix : Nat) : Except PyErr AIState :=
  match mmAdvance s training with
  | .error e => .error e
  | .ok s1 => mmChoose s1 training explore_rate explore_num ix

/-- AIPlayer.reset: fresh game instance, cursor back to the tree root. -/
def AIState.reset (s : AIState) (game2 : ConnectFour) : AIState :=
  { s with game := game2, curr_path := some [] }

/-- Initial training state for the C10 witness: player 1, fresh tree and
game, cursor at the root. -/
def w10State : AIState :=
  { player_number := 1
    complete_tree := GameTree.init (ConnectFour.init 5 5) 0 10
    curr_path := some []
    game := ConnectFour.init 5 5 }

/-- Cursor node for the C7 witness: three explored children, all with the
same (maximal) q-value 5. -/
def w7Node : GameTree :=
  .mk (5,5) [((0,0), 5), ((0,1), 5), ((0,2), 5)] 0 10
    [((0,0), .mk (5,5) [((1,0), 0)] 0 10 []),
     ((0,1), .mk (5,5) [((1,1), 0)] 0 10 []),
     ((0,2), .mk (5,5) [((1,2), 0)] 0 10 [])]

/-- Player state for the C7 witness: player 1 to move first, cursor at the
root `w7Node`, fresh game. -/
def w7State : AIState :=
  { player_number := 1
    complete_tree := w7Node
    curr_path := some []
    game := ConnectFour.init 5 5 }

-- ===== THEOREMS =====

theorem updateQTables_one_eq (t : GameTree) (player winner : Nat) (a g : ℚ)
    (m : Move) (v : ℚ) (hv : alookup t.q_values m = some v) :
    updateQTables t [m] player winner a g =
      some (t.setQ m (if winner = player then (1 - a) * v + a * t.reward
        else if winner + player = 3 then (1 - a) * v + a * (-t.reward)
        else (1 - a) * v)) := by
  simp [updateQTables, hv]
  split <;> try rfl
  split <;> rfl

theorem updateQTables_two_eq (t : GameTree) (player winner : Nat) (a g : ℚ)
    (m m1 : Move) (v : ℚ) (hv : alookup t.q_values m = some v) :
    updateQTables t [m, m1] player winner a g =
      some (t.setQ m (if winner = player then (1 - a) * v + a * t.reward
        else if winner + player = 3 then (1 - a) * v + a * (-t.reward)
        else (1 - a) * v)) := by
  simp [updateQTables, hv]
  split <;> try rfl
  split <;> rfl

theorem updateQTables_cons_eq (t child next g2 : GameTree) (player winner : Nat)
    (a g mx : ℚ) (m m1 m2 : Move) (rest2 : List Move) (v : ℚ)
    (hv : alookup t.q_values m = some v)
    (hc : alookup t.subtrees m = some child)
    (hg : alookup child.subtrees m1 = some next)
    (hrec : updateQTables next (m2 :: rest2) player winner a g = some g2)
    (hmx : maxQ g2.q_values = some mx) :
    updateQTables t (m :: m1 :: m2 :: rest2) player winner a g =
      some ((t.setQ m ((1 - a) * v + a * (g * mx))).setSub m (child.setSub m1 g2)) := by
  simp [updateQTables, hv, hc, hg, hrec, hmx]

theorem updateQTables_terminal_eq (t : GameTree) (ms : List Move)
    (player winner : Nat) (a g : ℚ) (i : Nat) (m : Move) (v : ℚ)
    (hm : (ms.drop i).head? = some m)
    (hlen : (ms.drop i).length ≤ 2)
    (hv : alookup t.q_values m = some v) :
    updateQTablesFrom t ms player winner a g i =
      some (t.setQ m (if winner = player then (1 - a) * v + a * t.reward
        else if winner + player = 3 then (1 - a) * v + a * (-t.reward)
        else (1 - a) * v)) := by
  unfold updateQTablesFrom
  rcases hd : ms.drop i with _ | ⟨x, _ | ⟨y, _ | ⟨z, r⟩⟩⟩
  · rw [hd] at hm; simp at hm
  · rw [hd] at hm; simp at hm; subst hm
    rw [updateQTables_one_eq t player winner a g _ v hv]
  · rw [hd] at hm; simp at hm; subst hm
    rw [updateQTables_two_eq t player winner a g _ y v hv]
  · rw [hd] at hlen; simp at hlen

/-- C1, counterexample: on the drawn game, at the terminal update for
player 2's final move with `winner = 0`, `learning_rate = 1/2` and old
value 1, the updated value is `(1 - 1/2) * 1 = 1/2`, not the old value 1:
the draw branch computes `(1 - α) * old`, not `(1 - α) * old + α * old`. -/
theorem c1_counterexample :
    (updateQTablesFrom c1Tree drawGame 2 0 (1/2) (9/10) 23).bind
        (fun t => alookup t.q_values (4,3)) = some (1/2) ∧
    alookup c1Tree.q_values (4,3) = some 1 ∧ ((1 : ℚ)/2 ≠ 1) := by
  refine ⟨?_, by simp [c1Tree, alookup, GameTree.q_values], by norm_num⟩
  simp [updateQTablesFrom, drawGame, updateQTables, c1Tree, alookup,
    GameTree.q_values, GameTree.setQ, aset]
  norm_num

/-- C1, amended: in the terminal case of `update_q_tables` with
`winner = 0` (a draw), the updated value is `(1 - α) * old` — the value
decays toward 0 (a zero draw reward), and equals the old value only when
`α = 0` or the old value is 0; it is not a no-op for arbitrary `α`. -/
theorem c1_theorem (t : GameTree) (ms : List Move) (player : Nat) (a g : ℚ)
    (i : Nat) (m : Move) (v : ℚ)
    (hm : (ms.drop i).head? = some m)
    (hlen : (ms.drop i).length ≤ 2)
    (hv : alookup t.q_values m = some v)
    (hp : player = 1 ∨ player = 2) :
    updateQTablesFrom t ms player 0 a g i = some (t.setQ m ((1 - a) * v)) := by
  rw [updateQTables_terminal_eq t ms player 0 a g i m v hm hlen hv]
  rcases hp with rfl | rfl <;> norm_num

/-- Witness for `c1_theorem` at the drawn game, index 23. -/
theorem c1_theorem_witness :
    updateQTablesFrom c1Tree drawGame 2 0 (1/2) (9/10) 23 =
      some (c1Tree.setQ (4,3) ((1 - 1/2) * 1)) :=
  c1_theorem c1Tree drawGame 2 (1/2) (9/10) 23 (4,3) 1 (by decide) (by decide)
    rfl (Or.inr rfl)

/-- C2, counterexample: on the 7-move game with `index + 2 < len`, the
grandchild two moves ahead does not exist, yet `update_q_tables` does not
fall back to the terminal-reward update — it raises `KeyError` (`none`):
the branch condition is `curr_move_index + 2 < len(move_sequence)`, not
grandchild existence. -/
theorem c2_counterexample :
    alookup c2Tree.subtrees (0,0) = some c2Child ∧
    alookup c2Child.subtrees (0,1) = none ∧
    sevenGame.length = 7 ∧
    updateQTablesFrom c2Tree sevenGame 1 1 (1/2) (9/10) 0 = none :=
  ⟨rfl, rfl, rfl, rfl⟩

/-- C2, amended: `update_q_tables` recurses exactly when
`curr_move_index + 2 < len(move_sequence)`; in that case it requires the
grandchild node to exist (raising `KeyError` otherwise), first updates the
grandchild recursively with `index + 2`, then sets this node's value for
`move_sequence[index]` to
`(1 − α) × old + α × (discount × max(grandchild's updated action values))`;
when `index + 2 ≥ len(move_sequence)` the terminal-reward update is applied
instead (even if grandchild nodes exist in the tree). -/
theorem c2_theorem (t : GameTree) (ms : List Move) (player winner : Nat)
    (a g : ℚ) (i : Nat) (m : Move) (v : ℚ)
    (hm : (ms.drop i).head? = some m)
    (hv : alookup t.q_values m = some v) :
    (∀ (m1 m2 : Move) (rest2 : List Move) (child next g2 : GameTree) (mx : ℚ),
        ms.drop i = m :: m1 :: m2 :: rest2 →
        alookup t.subtrees m = some child →
        alookup child.subtrees m1 = some next →
        updateQTablesFrom next ms player winner a g (i + 2) = some g2 →
        maxQ g2.q_values = some mx →
        updateQTablesFrom t ms player winner a g i =
          some ((t.setQ m ((1 - a) * v + a * (g * mx))).setSub m
            (child.setSub m1 g2))) ∧
    ((ms.drop i).length ≤ 2 →
      updateQTablesFrom t ms player winner a g i =
        some (t.setQ m (if winner = player then (1 - a) * v + a * t.reward
          else if winner + player = 3 then (1 - a) * v + a * (-t.reward)
          else (1 - a) * v))) := by
  constructor
  · intro m1 m2 rest2 child next g2 mx hd hc hgc hrec hmx
    have hdrop2 : ms.drop (i + 2) = m2 :: rest2 := by
      have h2 := List.drop_drop 2 i ms
      rw [hd] at h2
      simpa using h2.symm
    unfold updateQTablesFrom at hrec ⊢
    rw [hdrop2] at hrec
    rw [hd]
    exact updateQTables_cons_eq t child next g2 player winner a g mx
      m m1 m2 rest2 v hv hc hgc hrec hmx
  · intro hlen
    exact updateQTables_terminal_eq t ms player winner a g i m v hm hlen hv

/-- Witness for `c2_theorem`: a recursive update at index 4 of the 7-move
game, whose inner call at index 6 is terminal. -/
theorem c2_theorem_witness :
    updateQTablesFrom w2Tree sevenGame 1 1 (1/2) (9/10) 4 =
      some ((w2Tree.setQ (2,0) ((1 - 1/2) * 1 +
          (1/2) * ((9/10) * ((1 - 1/2) * 2 + (1/2) * 10)))).setSub (2,0)
        (w2Child.setSub (2,1)
          (w2Grand.setQ (3,0) ((1 - 1/2) * 2 + (1/2) * 10)))) :=
  (c2_theorem w2Tree sevenGame 1 1 (1/2) (9/10) 4 (2,0) 1 (by decide) rfl).1
    (2,1) (3,0) [] w2Child w2Grand
    (w2Grand.setQ (3,0) ((1 - 1/2) * 2 + (1/2) * 10))
    ((1 - 1/2) * 2 + (1/2) * 10)
    (by decide) rfl rfl rfl rfl

/-- C3: in the terminal case, a win for the acting player blends the old
value toward `+reward`, and a loss (`winner + player = 3`) blends it toward
`−reward`. -/
theorem c3_theorem (t : GameTree) (ms : List Move) (player winner : Nat)
    (a g : ℚ) (i : Nat) (m : Move) (v : ℚ)
    (hm : (ms.drop i).head? = some m)
    (hlen : (ms.drop i).length ≤ 2)
    (hv : alookup t.q_values m = some v)
    (hr : 0 < t.reward)
    (hp : player = 1 ∨ player = 2) :
    (winner = player →
      updateQTablesFrom t ms player winner a g i =
        some (t.setQ m ((1 - a) * v + a * t.reward))) ∧
    (winner + player = 3 →
      updateQTablesFrom t ms player winner a g i =
        some (t.setQ m ((1 - a) * v + a * (-t.reward)))) := by
  have key := updateQTables_terminal_eq t ms player winner a g i m v hm hlen hv
  constructor
  · intro hw
    rw [key, if_pos hw]
  · intro hw
    have hne : winner ≠ player := by rcases hp with rfl | rfl <;> omega
    rw [key, if_neg hne, if_pos hw]

/-- Witness for `c3_theorem`: player 1 wins the 7-move game; the terminal
update at index 6 blends the old value 4 toward `+reward`. -/
theorem c3_theorem_witness :
    updateQTablesFrom c3Tree sevenGame 1 1 (1/2) (9/10) 6 =
      some (c3Tree.setQ (3,0) ((1 - 1/2) * 4 + (1/2) * c3Tree.reward)) :=
  (c3_theorem c3Tree sevenGame 1 1 (1/2) (9/10) 6 (3,0) 4 (by decide) (by decide)
    rfl (by norm_num [c3Tree, GameTree.reward]) (Or.inl rfl)).1 rfl

/-- C5: every single update step of `update_q_tables` writes the convex
combination `(1 − α) × old + α × target` — target `discount × max` in the
recursive case, `+reward` / `−reward` / `0` in the terminal cases — so for
`α ∈ [0,1]` the new value lies between the old value and the target, and
iterating the identical blend converges geometrically:
`v_n − target = (1 − α)^n (v_0 − target)`. -/
theorem c5_theorem (a : ℚ) (h0 : 0 ≤ a) (h1 : a ≤ 1) :
    (∀ (t : GameTree) (ms : List Move) (player winner : Nat) (g : ℚ)
        (i : Nat) (m : Move) (v : ℚ),
      (ms.drop i).head? = some m → (ms.drop i).length ≤ 2 →
      alookup t.q_values m = some v →
      updateQTablesFrom t ms player winner a g i =
        some (t.setQ m (qBlend a v (if winner = player then t.reward
          else if winner + player = 3 then -t.reward else 0)))) ∧
    (∀ (t child next g2 : GameTree) (ms : List Move) (player winner : Nat)
        (g mx : ℚ) (i : Nat) (m m1 m2 : Move) (rest2 : List Move) (v : ℚ),
      ms.drop i = m :: m1 :: m2 :: rest2 →
      alookup t.q_values m = some v →
      alookup t.subtrees m = some child →
      alookup child.subtrees m1 = some next →
      updateQTablesFrom next ms player winner a g (i + 2) = some g2 →
      maxQ g2.q_values = some mx →
      updateQTablesFrom t ms player winner a g i =
        some ((t.setQ m (qBlend a v (g * mx))).setSub m (child.setSub m1 g2))) ∧
    (∀ old target : ℚ, min old target ≤ qBlend a old target ∧
        qBlend a old target ≤ max old target) ∧
    (∀ (target v0 : ℚ) (n : Nat),
        qIter a target n v0 - target = (1 - a)^n * (v0 - target)) := by
  refine ⟨?_, ?_, ?_, ?_⟩
  · intro t ms player winner g i m v hm hlen hv
    rw [updateQTables_terminal_eq t ms player winner a g i m v hm hlen hv]
    refine congrArg (fun q => some (t.setQ m q)) ?_
    by_cases hw : winner = player
    · rw [if_pos hw, if_pos hw]; rfl
    · rw [if_neg hw, if_neg hw]
      by_cases h3 : winner + player = 3
      · rw [if_pos h3, if_pos h3]; rfl
      · rw [if_neg h3, if_neg h3]; simp [qBlend]
  · intro t child next g2 ms player winner g mx i m m1 m2 rest2 v
      hd hv hc hgc hrec hmx
    have hdrop2 : ms.drop (i + 2) = m2 :: rest2 := by
      have h2 := List.drop_drop 2 i ms
      rw [hd] at h2
      simpa using h2.symm
    unfold updateQTablesFrom at hrec ⊢
    rw [hdrop2] at hrec
    rw [hd]
    exact updateQTables_cons_eq t child next g2 player winner a g mx
      m m1 m2 rest2 v hv hc hgc hrec hmx
  · intro old target
    rcases le_total old target with h | h
    · rw [min_eq_left h, max_eq_right h]
      constructor <;> (simp only [qBlend]; nlinarith)
    · rw [min_eq_right h, max_eq_left h]
      constructor <;> (simp only [qBlend]; nlinarith)
  · intro target v0 n
    induction n generalizing v0 with
    | zero => simp [qIter]
    | succ n ih =>
      have hstep : qIter a target (n + 1) v0 =
          qIter a target n (qBlend a v0 target) := rfl
      rw [hstep, ih (qBlend a v0 target)]
      simp only [qBlend]
      ring

/-- Witness for `c5_theorem`: player 2 loses the 7-move game; the terminal
update at index 5 is the convex blend toward `−reward`. -/
theorem c5_theorem_witness :
    updateQTablesFrom w5Tree sevenGame 2 1 (1/2) (9/10) 5 =
      some (w5Tree.setQ (2,1) (qBlend (1/2) 4 (-w5Tree.reward))) := by
  have h := (c5_theorem (1/2) (by norm_num) (by norm_num)).1 w5Tree sevenGame
    2 1 (9/10) 5 (2,1) 4 (by decide) (by decide) rfl
  simpa using h

/-- C9: the row check wraps around — on `c9Board` the bottom row is
`1 1 2 1 1`, whose first and last runs of 1s merge to length 4 under
`wrap=True`, so `get_winner` declares player 1 the winner even though
neither player has four contiguous cells anywhere. -/
theorem c9_theorem :
    ConnectFour.get_winner c9Game = some 1 ∧
    hasFourInARow c9Board 1 = false ∧
    hasFourInARow c9Board 2 = false ∧
    (c9Board.getD 0 []).take 2 = [1, 1] ∧
    (c9Board.getD 0 []).drop 3 = [1, 1] := by decide

/-- `sevenGame` really depicts a complete game: all seven moves are legal
from the empty 5 by 5 board, no prefix has a winner, and the full sequence
ends with player 1 winning. -/
theorem sevenGame_complete :
    ((playMoves (ConnectFour.init 5 5) sevenGame).map
      (fun g => g.get_winner)) = some (some 1) ∧
    ((List.range 7).all fun k =>
      (playMoves (ConnectFour.init 5 5) (sevenGame.take k)).elim false
        (fun g => g.get_winner == none)) = true := by decide

/-- `drawGame` really depicts a complete game: all 25 moves are legal from
the empty 5 by 5 board, no prefix has a winner, and the full sequence ends
in a draw (`winner = 0`). -/
theorem drawGame_complete :
    ((playMoves (ConnectFour.init 5 5) drawGame).map
      (fun g => g.get_winner)) = some (some 0) ∧
    ((List.range 25).all fun k =>
      (playMoves (ConnectFour.init 5 5) (drawGame.take k)).elim false
        (fun g => g.get_winner == none)) = true := by decide

theorem alookup_aset_self {β : Type} (l : List (Move × β)) (k : Move) (v : β) :
    alookup (aset l k v) k = some v := by
  induction l with
  | nil => simp [aset, alookup]
  | cons p rest ih =>
    by_cases h : p.1 = k
    · simp [aset, h, alookup]
    · simp [aset, h, alookup, ih]

theorem akeys_aset_mem {β : Type} (l : List (Move × β)) (k x : Move) (v : β)
    (hx : x ∈ akeys (aset l k v)) : x ∈ akeys l ∨ x = k := by
  induction l with
  | nil =>
    simp [aset, akeys] at hx
    exact Or.inr hx
  | cons p rest ih =>
    rcases p with ⟨m, w⟩
    by_cases h : m = k
    · subst h
      simp [aset, akeys] at hx ⊢
      tauto
    · simp [aset, h, akeys] at hx ⊢
      rcases hx with hx | hx
      · exact Or.inl (Or.inl hx)
      · rcases ih (by simpa [akeys] using hx) with h2 | h2
        · exact Or.inl (Or.inr (by simpa [akeys] using h2))
        · exact Or.inr h2

theorem akeys_map_const (l : List Move) (q : ℚ) :
    akeys (l.map (fun c => (c, q))) = l := by
  induction l with
  | nil => rfl
  | cons x rest ih => simp [akeys] at ih ⊢; exact ih

theorem alookup_map_const (l : List Move) (q : ℚ) (m : Move) (hm : m ∈ l) :
    alookup (l.map (fun c => (c, q))) m = some q := by
  induction l with
  | nil => simp at hm
  | cons x rest ih =>
    rcases List.mem_cons.mp hm with rfl | hm2
    · simp [alookup]
    · by_cases hx : x = m
      · simp [alookup, hx]
      · simp [alookup, hx]; exact ih hm2

theorem eraseChildren_aset (l : List (Move × SpecGameTree)) (k : Move)
    (v : SpecGameTree) :
    eraseChildren (aset l k v) = aset (eraseChildren l) k v.erase := by
  induction l with
  | nil => simp [aset, eraseChildren]
  | cons p rest ih =>
    rcases p with ⟨m, c⟩
    by_cases h : m = k
    · simp [aset, h, eraseChildren]
    · simp [aset, h, eraseChildren, ih]

/-- C4: `add_subtree` inserts a child built by `GameTree.__init__` from the
post-move state: it inherits the parent's `initial_q_val` and `reward`, its
q-table has exactly the post-move possible moves as keys, each at
`initial_q_val`, and it has no subtrees.  In the spec-level model (which
additionally stores `learning_rate` and `discount` per node) the child also
inherits `learning_rate` and `discount`, so they are invariant across the
tree; erasing those two fields commutes with child insertion, which ties
the spec-level operation to the source's. -/
theorem c4_theorem (t : GameTree) (game : ConnectFour) (move : Move)
    (n : SpecGameTree) (legal : List Move)
    (hq : move ∈ akeys t.q_values) (hnc : move ∉ akeys t.subtrees)
    (hlegal : legal = game.possible_moves)
    (hbs : n.board_size = game.board_size) :
    alookup (t.add_subtree game move).subtrees move =
      some (GameTree.init game t.initial_q_val t.reward) ∧
    (GameTree.init game t.initial_q_val t.reward).initial_q_val =
      t.initial_q_val ∧
    (GameTree.init game t.initial_q_val t.reward).reward = t.reward ∧
    akeys (GameTree.init game t.initial_q_val t.reward).q_values =
      game.possible_moves ∧
    (∀ m ∈ game.possible_moves,
      alookup (GameTree.init game t.initial_q_val t.reward).q_values m =
        some t.initial_q_val) ∧
    (GameTree.init game t.initial_q_val t.reward).subtrees = [] ∧
    alookup (n.add_child move legal).children move =
      some (SpecGameTree.new n.board_size n.initial_value n.reward
        n.learning_rate n.discount legal) ∧
    (SpecGameTree.new n.board_size n.initial_value n.reward n.learning_rate
      n.discount legal).learning_rate = n.learning_rate ∧
    (SpecGameTree.new n.board_size n.initial_value n.reward n.learning_rate
      n.discount legal).discount = n.discount ∧
    SpecGameTree.erase (n.add_child move legal) =
      GameTree.add_subtree (SpecGameTree.erase n) game move := by
  refine ⟨?_, rfl, rfl, akeys_map_const _ _, ?_, rfl, ?_, rfl, rfl, ?_⟩
  · exact alookup_aset_self t.subtrees move _
  · intro m hm
    exact alookup_map_const _ _ m hm
  · exact alookup_aset_self n.children move _
  · rcases n with ⟨bs, av, iv, r, lr, d, ch⟩
    simp only [SpecGameTree.board_size] at hbs
    simp only [SpecGameTree.add_child, SpecGameTree.erase, SpecGameTree.new,
      SpecGameTree.board_size, SpecGameTree.action_values,
      SpecGameTree.initial_value, SpecGameTree.reward,
      SpecGameTree.learning_rate, SpecGameTree.discount,
      SpecGameTree.children, GameTree.add_subtree, GameTree.setSub,
      GameTree.init, GameTree.board_size, GameTree.q_values,
      GameTree.initial_q_val, GameTree.reward, GameTree.subtrees,
      eraseChildren_aset]
    rw [hbs, hlegal]
    rfl

/-- Witness for `c4_theorem` at a concrete root, move and post-move state:
the inserted child inherits the constants and is seeded over the post-move
moves; in the spec model the child inherits `learning_rate` and
`discount`. -/
theorem c4_theorem_witness :
    alookup ((GameTree.init (ConnectFour.init 5 5) 0 10).add_subtree w6Game
        (0,3)).subtrees (0,3) =
      some (GameTree.init w6Game 0 10) ∧
    (GameTree.init w6Game 0 10).initial_q_val = 0 ∧
    (GameTree.init w6Game 0 10).reward = 10 ∧
    akeys (GameTree.init w6Game 0 10).q_values = w6Game.possible_moves ∧
    (SpecGameTree.new w4Spec.board_size w4Spec.initial_value w4Spec.reward
      w4Spec.learning_rate w4Spec.discount w6Game.possible_moves).learning_rate =
      w4Spec.learning_rate ∧
    SpecGameTree.erase (w4Spec.add_child (0,3) w6Game.possible_moves) =
      GameTree.add_subtree (SpecGameTree.erase w4Spec) w6Game (0,3) := by
  have h := c4_theorem (GameTree.init (ConnectFour.init 5 5) 0 10) w6Game
    (0,3) w4Spec w6Game.possible_moves (by decide) (by decide) rfl rfl
  exact ⟨h.1, h.2.1, h.2.2.1, h.2.2.2.1, h.2.2.2.2.2.2.2.1,
    h.2.2.2.2.2.2.2.2.2⟩

/-- C6: starting from `GameTree.__init__` on a game state, after any
sequence of precondition-respecting `add_subtree` calls the q-table keys
still equal the legal-move list recorded at construction, and the subtree
keys form a subset of the q-table keys. -/
theorem c6_theorem (game0 : ConnectFour) (iq r : ℚ) (t : GameTree)
    (h : ReachableAdds (GameTree.init game0 iq r) t) :
    akeys t.q_values = game0.possible_moves ∧
    ∀ m ∈ akeys t.subtrees, m ∈ akeys t.q_values := by
  induction h with
  | refl =>
    refine ⟨akeys_map_const _ _, ?_⟩
    intro m hm
    simp [GameTree.init, GameTree.subtrees, akeys] at hm
  | step t game move hreach hq hnc ih =>
    refine ⟨ih.1, ?_⟩
    intro m hm
    simp only [GameTree.add_subtree, GameTree.setSub, GameTree.subtrees,
      GameTree.q_values] at hm ⊢
    rcases akeys_aset_mem t.subtrees move m _ hm with h2 | h2
    · exact ih.2 m h2
    · subst h2; exact hq

/-- Witness for `c6_theorem` after one `add_subtree` call. -/
theorem c6_theorem_witness :
    akeys w6Tree.q_values = (ConnectFour.init 5 5).possible_moves ∧
    (0,3) ∈ akeys w6Tree.q_values :=
  have h := c6_theorem (ConnectFour.init 5 5) 0 10 w6Tree
    (ReachableAdds.step _ w6Game (0,3) ReachableAdds.refl (by decide)
      (by decide))
  ⟨h.1, h.2 (0,3) (by decide)⟩

/-- C8: the per-episode exploration probability is the linear sequence
`max - k * (max - min) / N`, and after all `N` episodes it equals exactly
`min` (exact in rational arithmetic; the source's floats carry the same
identity up to floating tolerance). -/
theorem c8_theorem (max_explore_rate min_explore_rate : ℚ) (num_games : Nat)
    (hn : 0 < num_games) :
    (∀ k : Nat, exploreRateSeq max_explore_rate min_explore_rate num_games k =
      max_explore_rate -
        (k : ℚ) * ((max_explore_rate - min_explore_rate) / (num_games : ℚ))) ∧
    exploreRateSeq max_explore_rate min_explore_rate num_games num_games =
      min_explore_rate := by
  have hne : (num_games : ℚ) ≠ 0 := by
    exact_mod_cast Nat.pos_iff_ne_zero.mp hn
  have hlin : ∀ k : Nat,
      exploreRateSeq max_explore_rate min_explore_rate num_games k =
        max_explore_rate -
          (k : ℚ) * ((max_explore_rate - min_explore_rate) / (num_games : ℚ)) := by
    intro k
    induction k with
    | zero => simp [exploreRateSeq]
    | succ k ih =>
      rw [show exploreRateSeq max_explore_rate min_explore_rate num_games
          (k + 1) = exploreRateSeq max_explore_rate min_explore_rate
          num_games k - (max_explore_rate - min_explore_rate) /
          (num_games : ℚ) from rfl, ih]
      push_cast
      ring
  refine ⟨hlin, ?_⟩
  rw [hlin num_games]
  field_simp

/-- Witness for `c8_theorem`: with `max = 1`, `min = 0` and 4 episodes the
sequence ends at exactly 0 and its second value is `1 - 1/4`. -/
theorem c8_theorem_witness :
    exploreRateSeq 1 0 4 1 = 1 - (1 : ℚ) * ((1 - 0) / (4 : ℚ)) ∧
    exploreRateSeq 1 0 4 4 = 0 :=
  ⟨(c8_theorem 1 0 4 (by norm_num)).1 1, (c8_theorem 1 0 4 (by norm_num)).2⟩

theorem alookup_isSome_of_mem {β : Type} (l : List (Move × β)) (m : Move)
    (hm : m ∈ akeys l) : ∃ v, alookup l m = some v := by
  induction l with
  | nil => simp [akeys] at hm
  | cons p rest ih =>
    by_cases h : p.1 = m
    · exact ⟨p.2, by simp [alookup, h]⟩
    · have hm2 : m ∈ akeys rest := by
        simp [akeys] at hm ⊢
        rcases hm with h1 | h1
        · exact absurd h1.symm h
        · exact h1
      rcases ih hm2 with ⟨v, hv⟩
      exact ⟨v, by simp [alookup, h, hv]⟩

theorem nodeAt_append (t : GameTree) (p : List Move) (m : Move) :
    nodeAt t (p ++ [m]) =
      match nodeAt t p with
      | none => none
      | some n => alookup n.subtrees m := by
  induction p generalizing t with
  | nil =>
    simp only [List.nil_append, nodeAt]
    cases alookup t.subtrees m <;> simp [nodeAt]
  | cons x rest ih =>
    simp only [List.cons_append, nodeAt]
    cases alookup t.subtrees x <;> simp [ih]

theorem addSubtreeAt_ok (p : List Move) (t n : GameTree) (game : ConnectFour)
    (mv : Move) (h : nodeAt t p = some n) :
    ∃ t2, addSubtreeAt t p game mv = some t2 ∧
      nodeAt t2 p = some (n.add_subtree game mv) := by
  induction p generalizing t with
  | nil =>
    simp [nodeAt] at h
    exact ⟨t.add_subtree game mv, by simp [addSubtreeAt, h, nodeAt]⟩
  | cons x rest ih =>
    simp only [nodeAt] at h
    cases hc : alookup t.subtrees x with
    | none => rw [hc] at h; simp at h
    | some c =>
      rw [hc] at h
      rcases ih c h with ⟨c2, hc2, hn2⟩
      refine ⟨t.setSub x c2, ?_, ?_⟩
      · simp [addSubtreeAt, hc, hc2]
      · simp only [nodeAt, GameTree.setSub, GameTree.subtrees,
          alookup_aset_self, hn2]

theorem choice_mem {α : Type} (l : List α) (ix : Nat) (a : α)
    (h : choice l ix = .ok a) : a ∈ l := by
  unfold choice at h
  cases hg : l.get? (ix % l.length) with
  | none => rw [hg] at h; simp at h
  | some b =>
    rw [hg] at h
    simp at h
    subst h
    exact List.get?_mem hg

theorem optLoop_subset (qs : List (Move × ℚ)) (ks res : List Move) :
    ∀ acc : List Move, optLoop qs acc ks = some res → ∀ m ∈ res, m ∈ acc ∨ m ∈ ks := by
  induction ks with
  | nil =>
    intro acc h m hm
    simp [optLoop] at h
    subst h
    exact Or.inl hm
  | cons k rest ih =>
    intro acc h m hm
    cases acc with
    | nil =>
      simp only [optLoop] at h
      rcases ih [k] h m hm with h2 | h2
      · simp at h2; subst h2; exact Or.inr (List.mem_cons_self _ _)
      · exact Or.inr (List.mem_cons_of_mem _ h2)
    | cons a0 arest =>
      simp only [optLoop] at h
      cases hm1 : alookup qs k with
      | none => rw [hm1] at h; simp at h
      | some qm =>
        cases hm2 : alookup qs a0 with
        | none => rw [hm1, hm2] at h; simp at h
        | some qa =>
          rw [hm1, hm2] at h
          simp only at h
          by_cases he : qm = qa
          · rw [if_pos he] at h
            rcases ih _ h m hm with h2 | h2
            · rcases List.mem_append.mp h2 with h3 | h3
              · exact Or.inl h3
              · simp at h3; subst h3; exact Or.inr (List.mem_cons_self _ _)
            · exact Or.inr (List.mem_cons_of_mem _ h2)
          · rw [if_neg he] at h
            by_cases hlt : qa < qm
            · rw [if_pos hlt] at h
              rcases ih _ h m hm with h2 | h2
              · simp at h2; subst h2; exact Or.inr (List.mem_cons_self _ _)
              · exact Or.inr (List.mem_cons_of_mem _ h2)
            · rw [if_neg hlt] at h
              rcases ih _ h m hm with h2 | h2
              · exact Or.inl h2
              · exact Or.inr (List.mem_cons_of_mem _ h2)

theorem mmExploit_inv (s : AIState) (p : List Move) (node : GameTree) (ix : Nat)
    (hnode : nodeAt s.complete_tree p = some node) :
    mmExploit s p node ix ≠ .error .assertionError ∧
    ∀ s2, mmExploit s p node ix = .ok s2 →
      ∃ p2 n2, s2.curr_path = some p2 ∧ nodeAt s2.complete_tree p2 = some n2 := by
  unfold mmExploit
  cases hacts : optimalActions node.q_values node.subtrees with
  | none => exact ⟨by simp, by simp⟩
  | some acts =>
    cases hch : choice acts ix with
    | error e =>
      have he : e ≠ PyErr.assertionError := by
        unfold choice at hch
        cases hg : acts.get? (ix % acts.length) with
        | none => rw [hg] at hch; simp at hch; subst hch; simp
        | some b => rw [hg] at hch; simp at hch
      simp only [hch]
      exact ⟨by simp [he], by simp⟩
    | ok chosen =>
      simp only [hch]
      cases hrec : s.game.record_move chosen.1 chosen.2 none with
      | none => simp only [hrec]; exact ⟨by simp, by simp⟩
      | some game2 =>
        simp only [hrec]
        refine ⟨by simp, ?_⟩
        intro s2 h2
        simp only [Except.ok.injEq] at h2
        subst h2
        have hmem : chosen ∈ akeys node.subtrees := by
          have h3 := optLoop_subset node.q_values (akeys node.subtrees) acts
            [] hacts chosen (choice_mem acts ix chosen hch)
          simpa using h3
        rcases alookup_isSome_of_mem node.subtrees chosen hmem with ⟨c, hc⟩
        refine ⟨p ++ [chosen], c, rfl, ?_⟩
        rw [nodeAt_append, hnode]
        exact hc

theorem mmExplore_inv (s : AIState) (p : List Move) (node : GameTree) (ix : Nat)
    (hp : s.curr_path = some p)
    (hnode : nodeAt s.complete_tree p = some node) :
    mmExplore s true ix ≠ .error .assertionError ∧
    ∀ s2, mmExplore s true ix = .ok s2 →
      ∃ p2 n2, s2.curr_path = some p2 ∧ nodeAt s2.complete_tree p2 = some n2 := by
  unfold mmExplore
  cases hch : choice s.game.possible_moves ix with
  | error e =>
    have he : e ≠ PyErr.assertionError := by
      unfold choice at hch
      cases hg : s.game.possible_moves.get?
          (ix % s.game.possible_moves.length) with
      | none => rw [hg] at hch; simp at hch; subst hch; simp
      | some b => rw [hg] at hch; simp at hch
    simp only [hch]
    exact ⟨by simp [he], by simp⟩
  | ok chosen =>
    simp only [hch]
    cases hrec : s.game.record_move chosen.1 chosen.2 none with
    | none => simp only [hrec]; exact ⟨by simp, by simp⟩
    | some game2 =>
      simp only [hrec, if_pos rfl, hp, hnode, if_true]
      by_cases hmem : chosen ∈ akeys node.subtrees
      · rw [if_pos hmem]
        refine ⟨by simp, ?_⟩
        intro s2 h2
        simp only [Except.ok.injEq] at h2
        subst h2
        rcases alookup_isSome_of_mem node.subtrees chosen hmem with ⟨c, hc⟩
        refine ⟨p ++ [chosen], c, rfl, ?_⟩
        rw [nodeAt_append, hnode]
        exact hc
      · rw [if_neg hmem]
        rcases addSubtreeAt_ok p s.complete_tree node game2 chosen hnode with
          ⟨t2, ht2, hn2⟩
        simp only [ht2]
        refine ⟨by simp, ?_⟩
        intro s2 h2
        simp only [Except.ok.injEq] at h2
        subst h2
        refine ⟨p ++ [chosen], GameTree.init game2 node.initial_q_val
          node.reward, rfl, ?_⟩
        rw [nodeAt_append]
        simp only [hn2, GameTree.add_subtree, GameTree.setSub,
          GameTree.subtrees, alookup_aset_self]

theorem mmAdvance_inv (s : AIState) (p : List Move) (node : GameTree)
    (hp : s.curr_path = some p)
    (hnode : nodeAt s.complete_tree p = some node) :
    mmAdvance s true ≠ .error .assertionError ∧
    ∀ s1, mmAdvance s true = .ok s1 →
      ∃ p1 n1, s1.curr_path = some p1 ∧ nodeAt s1.complete_tree p1 = some n1 := by
  unfold mmAdvance
  simp only [hp]
  by_cases hcond : s.player_number ≠ 1 ∨ p ≠ []
  · rw [if_pos hcond]
    cases hlast : s.game.move_sequence.getLast? with
    | none => exact ⟨by simp, by simp⟩
    | some latest =>
      simp only [hnode]
      by_cases hmem : latest ∈ akeys node.subtrees
      · rw [if_pos hmem]
        refine ⟨by simp, ?_⟩
        intro s1 h1
        simp only [Except.ok.injEq] at h1
        subst h1
        rcases alookup_isSome_of_mem node.subtrees latest hmem with ⟨c, hc⟩
        refine ⟨p ++ [latest], c, rfl, ?_⟩
        rw [nodeAt_append, hnode]
        exact hc
      · rw [if_neg hmem]
        rw [if_neg (show ¬(true = false) by simp)]
        rcases addSubtreeAt_ok p s.complete_tree node s.game latest hnode with
          ⟨t2, ht2, hn2⟩
        simp only [ht2]
        refine ⟨by simp, ?_⟩
        intro s1 h1
        simp only [Except.ok.injEq] at h1
        subst h1
        refine ⟨p ++ [latest], GameTree.init s.game node.initial_q_val
          node.reward, rfl, ?_⟩
        rw [nodeAt_append]
        simp only [hn2, GameTree.add_subtree, GameTree.setSub,
          GameTree.subtrees, alookup_aset_self]
  · rw [if_neg hcond]
    exact ⟨by simp, fun s1 h1 => by
      simp only [Except.ok.injEq] at h1
      subst h1
      exact ⟨p, node, hp, hnode⟩⟩

theorem mmChoose_inv (s : AIState) (p : List Move) (node : GameTree)
    (er en : ℚ) (ix : Nat)
    (hp : s.curr_path = some p)
    (hnode : nodeAt s.complete_tree p = some node) :
    mmChoose s true er en ix ≠ .error .assertionError ∧
    ∀ s2, mmChoose s true er en ix = .ok s2 →
      ∃ p2 n2, s2.curr_path = some p2 ∧ nodeAt s2.complete_tree p2 = some n2 := by
  unfold mmChoose
  simp only [hp, hnode]
  by_cases hc : node.subtrees.isEmpty = true ∨ (True ∧ en < er)
  · rw [if_pos hc]
    exact mmExplore_inv s p node ix hp hnode
  · rw [if_neg hc]
    exact mmExploit_inv s p node ix hnode

/-- C10: with `training=True` and an attached, resolvable cursor, a
`make_move` call never hits the failing side of `assert self.curr_tree is
not None`, and any successful call leaves the cursor attached and
resolvable again — so along a full training game starting at the tree root
the assert never fails. -/
theorem c10_theorem (s : AIState) (p : List Move) (node : GameTree)
    (er en : ℚ) (ix : Nat)
    (hp : s.curr_path = some p)
    (hnode : nodeAt s.complete_tree p = some node) :
    makeMove s true er en ix ≠ .error .assertionError ∧
    ∀ s2, makeMove s true er en ix = .ok s2 →
      ∃ p2 n2, s2.curr_path = some p2 ∧ nodeAt s2.complete_tree p2 = some n2 := by
  unfold makeMove
  cases hadv : mmAdvance s true with
  | error e =>
    have h1 := (mmAdvance_inv s p node hp hnode).1
    rw [hadv] at h1
    exact ⟨fun hbad => h1 hbad, by simp⟩
  | ok s1 =>
    rcases (mmAdvance_inv s p node hp hnode).2 s1 hadv with ⟨p1, n1, hp1, hn1⟩
    exact mmChoose_inv s1 p1 n1 er en ix hp1 hn1

/-- Witness for `c10_theorem` on a concrete first training move. -/
theorem c10_theorem_witness :
    makeMove w10State true 1 (1/2) 0 ≠ .error .assertionError :=
  (c10_theorem w10State [] (GameTree.init (ConnectFour.init 5 5) 0 10)
    1 (1/2) 0 rfl rfl).1

theorem optLoop_maximal (qs : List (Move × ℚ)) (f : Move → ℚ) :
    ∀ (ks acc : List Move) (b : ℚ),
      (∀ m ∈ ks, alookup qs m = some (f m)) →
      (∀ m ∈ acc, alookup qs m = some (f m)) →
      (∀ m ∈ acc, f m = b) →
      acc ≠ [] →
      ∃ res, optLoop qs acc ks = some res ∧ res ≠ [] ∧
        (∀ m, m ∈ res ↔ ((m ∈ acc ∨ m ∈ ks) ∧
          ∀ m2, (m2 ∈ acc ∨ m2 ∈ ks) → f m2 ≤ f m)) := by
  intro ks
  induction ks with
  | nil =>
    intro acc b hks hacc hb hne
    refine ⟨acc, by simp [optLoop], hne, ?_⟩
    intro m
    constructor
    · intro hm
      refine ⟨Or.inl hm, ?_⟩
      intro m2 hm2
      rcases hm2 with h2 | h2
      · rw [hb m2 h2, hb m hm]
      · simp at h2
    · intro h
      rcases h.1 with h1 | h1
      · exact h1
      · simp at h1
  | cons k rest ih =>
    intro acc b hks hacc hb hne
    cases acc with
    | nil => exact absurd rfl hne
    | cons a0 arest =>
      have ha0 : f a0 = b := hb a0 (List.mem_cons_self _ _)
      have hqk : alookup qs k = some (f k) := hks k (List.mem_cons_self _ _)
      have hqa0 : alookup qs a0 = some (f a0) :=
        hacc a0 (List.mem_cons_self _ _)
      have hks2 : ∀ m ∈ rest, alookup qs m = some (f m) :=
        fun m hm => hks m (List.mem_cons_of_mem _ hm)
      simp only [optLoop, hqk, hqa0]
      by_cases heq : f k = f a0
      · rw [if_pos heq]
        have hset : ∀ x : Move,
            (x ∈ (a0 :: arest) ++ [k] ∨ x ∈ rest) ↔
              (x ∈ a0 :: arest ∨ x ∈ k :: rest) := by
          intro x
          simp [List.mem_append, List.mem_cons]
          tauto
        rcases ih ((a0 :: arest) ++ [k]) b hks2
          (by
            intro m hm
            rcases List.mem_append.mp hm with h1 | h1
            · exact hacc m h1
            · simp at h1; subst h1; exact hqk)
          (by
            intro m hm
            rcases List.mem_append.mp hm with h1 | h1
            · exact hb m h1
            · simp at h1; subst h1; rw [heq, ha0])
          (by simp) with ⟨res, hres, hne2, hiff⟩
        refine ⟨res, hres, hne2, ?_⟩
        intro m
        rw [hiff m]
        constructor
        · intro ⟨h1, h2⟩
          exact ⟨(hset m).mp h1, fun m2 hm2 => h2 m2 ((hset m2).mpr hm2)⟩
        · intro ⟨h1, h2⟩
          exact ⟨(hset m).mpr h1, fun m2 hm2 => h2 m2 ((hset m2).mp hm2)⟩
      · rw [if_neg heq]
        by_cases hlt : f a0 < f k
        · rw [if_pos hlt]
          rcases ih [k] (f k) hks2
            (by intro m3 hm3; simp at hm3; rw [hm3]; exact hqk)
            (by intro m3 hm3; simp at hm3; rw [hm3])
            (by simp) with ⟨res, hres, hne2, hiff⟩
          refine ⟨res, hres, hne2, ?_⟩
          intro m
          rw [hiff m]
          constructor
          · intro ⟨h1, h2⟩
            have hkm : f k ≤ f m := h2 k (Or.inl (List.mem_cons_self _ _))
            refine ⟨?_, ?_⟩
            · rcases h1 with h3 | h3
              · simp at h3; rw [h3]
                exact Or.inr (List.mem_cons_self _ _)
              · exact Or.inr (List.mem_cons_of_mem _ h3)
            · intro m2 hm2
              rcases hm2 with h3 | h3
              · have : f m2 = b := hb m2 h3
                rw [this, ← ha0]
                exact le_of_lt (lt_of_lt_of_le hlt hkm)
              · rcases List.mem_cons.mp h3 with h4 | h4
                · rw [h4]; exact hkm
                · exact h2 m2 (Or.inr h4)
          · intro ⟨h1, h2⟩
            have hkm : f k ≤ f m := h2 k (Or.inr (List.mem_cons_self _ _))
            refine ⟨?_, ?_⟩
            · rcases h1 with h3 | h3
              · exfalso
                have hmb : f m = b := hb m h3
                rw [hmb, ← ha0] at hkm
                exact absurd hkm (not_le.mpr hlt)
              · rcases List.mem_cons.mp h3 with h4 | h4
                · rw [h4]; exact Or.inl (List.mem_cons_self _ _)
                · exact Or.inr h4
            · intro m2 hm2
              rcases hm2 with h3 | h3
              · simp at h3; rw [h3]
                exact h2 k (Or.inr (List.mem_cons_self _ _))
              · exact h2 m2 (Or.inr (List.mem_cons_of_mem _ h3))
        · rw [if_neg hlt]
          have hklt : f k < f a0 :=
            lt_of_le_of_ne (not_lt.mp hlt) (fun h => heq h)
          rcases ih (a0 :: arest) b hks2 hacc hb hne with
            ⟨res, hres, hne2, hiff⟩
          refine ⟨res, hres, hne2, ?_⟩
          intro m
          rw [hiff m]
          constructor
          · intro ⟨h1, h2⟩
            have ham : f a0 ≤ f m :=
              h2 a0 (Or.inl (List.mem_cons_self _ _))
            refine ⟨?_, ?_⟩
            · rcases h1 with h3 | h3
              · exact Or.inl h3
              · exact Or.inr (List.mem_cons_of_mem _ h3)
            · intro m2 hm2
              rcases hm2 with h3 | h3
              · exact h2 m2 (Or.inl h3)
              · rcases List.mem_cons.mp h3 with h4 | h4
                · subst h4
                  exact le_of_lt (lt_of_lt_of_le hklt ham)
                · exact h2 m2 (Or.inr h4)
          · intro ⟨h1, h2⟩
            have ham : f a0 ≤ f m :=
              h2 a0 (Or.inl (List.mem_cons_self _ _))
            refine ⟨?_, ?_⟩
            · rcases h1 with h3 | h3
              · exact Or.inl h3
              · rcases List.mem_cons.mp h3 with h4 | h4
                · exfalso
                  subst h4
                  exact absurd (lt_of_lt_of_le hklt ham) (lt_irrefl _)
                · exact Or.inr h4
            · intro m2 hm2
              rcases hm2 with h3 | h3
              · exact h2 m2 (Or.inl h3)
              · exact h2 m2 (Or.inr (List.mem_cons_of_mem _ h3))

theorem optimalActions_spec (qs : List (Move × ℚ)) (subs : List (Move × GameTree))
    (f : Move → ℚ)
    (hall : ∀ m ∈ akeys subs, alookup qs m = some (f m))
    (hne : subs ≠ []) :
    ∃ res, optimalActions qs subs = some res ∧ res ≠ [] ∧
      (∀ m, m ∈ res ↔ (m ∈ akeys subs ∧ ∀ m2 ∈ akeys subs, f m2 ≤ f m)) := by
  cases subs with
  | nil => exact absurd rfl hne
  | cons s0 srest =>
    have hkeys : akeys (s0 :: srest) = s0.1 :: akeys srest := rfl
    have hq0 : alookup qs s0.1 = some (f s0.1) :=
      hall s0.1 (by rw [hkeys]; exact List.mem_cons_self _ _)
    have hstep : optimalActions qs (s0 :: srest) =
        optLoop qs [s0.1] (akeys srest) := by
      simp [optimalActions, hkeys, optLoop, akeys]
    rcases optLoop_maximal qs f (akeys srest) [s0.1] (f s0.1)
      (fun m hm => hall m (by rw [hkeys]; exact List.mem_cons_of_mem _ hm))
      (by intro m3 hm3; simp at hm3; rw [hm3]; exact hq0)
      (by intro m3 hm3; simp at hm3; rw [hm3])
      (by simp) with ⟨res, hres, hne2, hiff⟩
    refine ⟨res, by rw [hstep]; exact hres, hne2, ?_⟩
    intro m
    rw [hiff m, hkeys]
    have hset : ∀ x : Move, (x ∈ [s0.1] ∨ x ∈ akeys srest) ↔
        x ∈ s0.1 :: akeys srest := by
      intro x
      simp [List.mem_cons]
    constructor
    · intro ⟨h1, h2⟩
      exact ⟨(hset m).mp h1, fun m2 hm2 => h2 m2 ((hset m2).mpr hm2)⟩
    · intro ⟨h1, h2⟩
      exact ⟨(hset m).mpr h1, fun m2 hm2 => h2 m2 ((hset m2).mp hm2)⟩

theorem choice_ok {α : Type} (l : List α) (ix : Nat) (hne : l ≠ []) :
    ∃ a, choice l ix = .ok a ∧ a ∈ l := by
  have hlen : 0 < l.length := List.length_pos.mpr hne
  have hlt : ix % l.length < l.length := Nat.mod_lt ix hlen
  rcases List.get?_eq_get hlt with hg
  refine ⟨l.get ⟨ix % l.length, hlt⟩, ?_, List.get_mem _ _ _⟩
  unfold choice
  rw [hg]

theorem record_move_ok (g : ConnectFour) (y x : Nat)
    (hb : y < g.board_size.1 ∧ x < g.board_size.2)
    (hm : (y, x) ∈ g.possible_moves) :
    ∃ game2, g.record_move y x none = some game2 := by
  unfold ConnectFour.record_move
  rw [if_pos hb, if_pos hm]
  exact ⟨_, rfl⟩

/-- C7: in the exploit branch (cursor attached after step 1, the cursor
node has children, and the explore condition does not fire), the chosen
move is one of the cursor node's subtree keys attaining the maximal
q-value — and `optimal_actions` is exactly the set of such maximizers, in
iteration order, so the uniform `random.choice` draws uniformly among
them — the move is recorded, and the cursor descends into the chosen
child. -/
theorem c7_theorem (s s1 : AIState) (training : Bool) (er en : ℚ) (ix : Nat)
    (p : List Move) (node : GameTree) (f : Move → ℚ)
    (hadv : mmAdvance s training = .ok s1)
    (hp : s1.curr_path = some p)
    (hnode : nodeAt s1.complete_tree p = some node)
    (hne : node.subtrees.isEmpty = false)
    (hnoexp : ¬ (training = true ∧ en < er))
    (hq : ∀ m ∈ akeys node.subtrees, alookup node.q_values m = some (f m))
    (hposs : ∀ m ∈ akeys node.subtrees, m ∈ s1.game.possible_moves)
    (hbounds : ∀ m ∈ s1.game.possible_moves,
      m.1 < s1.game.board_size.1 ∧ m.2 < s1.game.board_size.2) :
    ∃ acts chosen game2,
      optimalActions node.q_values node.subtrees = some acts ∧
      (∀ m, m ∈ acts ↔ (m ∈ akeys node.subtrees ∧
        ∀ m2 ∈ akeys node.subtrees, f m2 ≤ f m)) ∧
      choice acts ix = .ok chosen ∧
      chosen ∈ akeys node.subtrees ∧
      (∀ m2 ∈ akeys node.subtrees, f m2 ≤ f chosen) ∧
      s1.game.record_move chosen.1 chosen.2 none = some game2 ∧
      makeMove s training er en ix =
        .ok { s1 with game := game2, curr_path := some (p ++ [chosen]) } ∧
      nodeAt s1.complete_tree (p ++ [chosen]) = alookup node.subtrees chosen := by
  have hsubsne : node.subtrees ≠ [] := by
    intro h
    rw [h] at hne
    simp [List.isEmpty] at hne
  rcases optimalActions_spec node.q_values node.subtrees f hq hsubsne with
    ⟨acts, hacts, hactsne, hiff⟩
  rcases choice_ok acts ix hactsne with ⟨chosen, hch, hchmem⟩
  rcases (hiff chosen).mp hchmem with ⟨hkmem, hmax⟩
  have hchposs : (chosen.1, chosen.2) ∈ s1.game.possible_moves := by
    simpa using hposs chosen hkmem
  rcases record_move_ok s1.game chosen.1 chosen.2
    (hbounds (chosen.1, chosen.2) hchposs) hchposs with ⟨game2, hrec⟩
  refine ⟨acts, chosen, game2, hacts, hiff, hch, hkmem, hmax, ?_, ?_, ?_⟩
  · simpa using hrec
  · unfold makeMove
    rw [hadv]
    show mmChoose s1 training er en ix = _
    unfold mmChoose
    rw [hp]
    simp only [hnode]
    rw [if_neg (by
      intro hcond
      rcases hcond with hcond | hcond
      · rw [hne] at hcond; exact Bool.false_ne_true hcond
      · exact hnoexp hcond)]
    unfold mmExploit
    rw [hacts]
    simp only [hch]
    have hrec2 : s1.game.record_move chosen.1 chosen.2 none = some game2 := by
      simpa using hrec
    simp only [hrec2]
  · rw [nodeAt_append, hnode]

/-- Witness for `c7_theorem`: a concrete exploit step (not training, so
the explore condition cannot fire) from `w7State`. -/
theorem c7_theorem_witness :
    ∃ acts chosen game2,
      optimalActions w7Node.q_values w7Node.subtrees = some acts ∧
      (∀ m, m ∈ acts ↔ (m ∈ akeys w7Node.subtrees ∧
        ∀ m2 ∈ akeys w7Node.subtrees, (5 : ℚ) ≤ 5)) ∧
      choice acts 0 = .ok chosen ∧
      chosen ∈ akeys w7Node.subtrees ∧
      (∀ m2 ∈ akeys w7Node.subtrees, (5 : ℚ) ≤ 5) ∧
      w7State.game.record_move chosen.1 chosen.2 none = some game2 ∧
      makeMove w7State false 1 (1/2) 0 =
        .ok { w7State with game := game2, curr_path := some ([] ++ [chosen]) } ∧
      nodeAt w7State.complete_tree ([] ++ [chosen]) =
        alookup w7Node.subtrees chosen :=
  c7_theorem w7State w7State false 1 (1/2) 0 [] w7Node (fun _ => 5)
    rfl rfl rfl rfl (by simp)
    (by
      intro m hm
      simp [akeys, w7Node, GameTree.subtrees] at hm
      rcases hm with rfl | rfl | rfl <;> rfl)
    (by
      intro m hm
      simp [akeys, w7Node, GameTree.subtrees] at hm
      rcases hm with rfl | rfl | rfl <;> decide)
    (by decide)
